import Mathlib

/-
Verification of the select-k library (src/include/select_k/select_k.h).

The library maintains at most K scored candidates in a
`std::priority_queue` whose comparator is the comparison policy applied to
scores.  With policy `Compare`, `top()` is the retained entry that is
maximal for `Compare`-as-less, i.e. the *worst* retained entry: for
`k::Top` (`Compare = std::greater`) the smallest score, for `k::Bottom`
(`Compare = std::less`) the largest score.

We embed the priority queue as a list kept in heap pop order: the head is
`top()`, `pop` is `tail`, and `push` is an ordered insert that places the
new entry just before the first strictly-less-prioritised entry.  Ties
between equal scores are broken arbitrarily by the C++ heap; the ordered
insert is one deterministic refinement of it, and every property proved
below depends on scores only, never on the relative order of tied entries.
-/

namespace SelectK

/-- Model of `std::priority_queue::push` on the pop-order list
representation: the new element is inserted before the first element `x`
with `cmp x e` (i.e. the first element strictly below `e` in heap
priority), so the head stays the element `top()` would return. -/
def heapPush (cmp : γ → γ → Bool) (e : γ) : List γ → List γ
  | [] => [e]
  | x :: xs => if cmp x e then e :: x :: xs else x :: heapPush cmp e xs

/-- Model of `k::Select<T, ScoreType, CompareType>`: capacity `k_`, the
scoring function `scorer_`, the comparison policy `CompareType` on scores
(as a boolean relation), and the heap `selected_` of scored candidates. -/
structure Select (α β : Type) where
  k : Nat
  scorer : α → β
  compare : β → β → Bool
  selected : List (α × β)

/-- The constructor `Select(size_t k, ScoringFunction scorer)`: the heap
starts empty. -/
def Select.new (k : Nat) (scorer : α → β) (compare : β → β → Bool) :
    Select α β :=
  ⟨k, scorer, compare, []⟩

/-- `ScoredCompare`: the policy applied to the score components. -/
def Select.scoredCompare (s : Select α β) (c1 c2 : α × β) : Bool :=
  s.compare c1.2 c2.2

/-- `Select::offer`: reject immediately when `k_ == 0`; otherwise compute
the score, insert unconditionally while below capacity, and at capacity
replace `top()` (the worst retained entry) exactly when the new entry
beats it under the policy.  The source's locals `score` and `scored` are
inlined as `s.scorer c` and `(c, s.scorer c)`.  The `[]` branch of the
match is unreachable (at capacity with `k_ > 0` the heap is nonempty); it
mirrors the fact that `top()` is only called there. -/
def Select.offer (s : Select α β) (c : α) : Bool × Select α β :=
  if s.k = 0 then (false, s)
  else if s.selected.length < s.k then
    (true, { s with selected := heapPush s.scoredCompare (c, s.scorer c) s.selected })
  else
    match s.selected with
    | [] => (false, s)
    | worst :: rest =>
      if s.scoredCompare (c, s.scorer c) worst then
        (true, { s with selected := heapPush s.scoredCompare (c, s.scorer c) rest })
      else
        (false, s)

/-- `Select::extract`: pop the heap to exhaustion, emitting each `top()`'s
candidate and counting the emissions. -/
def extract : List (α × β) → List α × Nat
  | [] => ([], 0)
  | e :: rest =>
    let r := extract rest
    (e.1 :: r.1, r.2 + 1)

/-- `Select::extractSorted`: pop the heap to exhaustion pushing each
candidate on a stack (`List.foldl` with cons builds exactly that stack,
last pushed on top), then pop the stack to the output, counting. -/
def extractSorted (heap : List (α × β)) : List α × Nat :=
  let stack := heap.foldl (fun st e => e.1 :: st) []
  (stack, stack.length)

/-- `Select::results(out, sorted, preserveSelection)`.  In the source,
passing `preserveSelection = true` extracts from the member heap itself,
draining it (this is the spec's `destructive = true`), while
`preserveSelection = false` extracts from a copy, leaving the member heap
intact (the spec's `destructive = false`).  Returns the emitted
candidates, the count, and the selector state after the call. -/
def Select.results (s : Select α β) (sorted preserveSelection : Bool) :
    List α × Nat × Select α β :=
  if preserveSelection then
    if sorted then
      let r := extractSorted s.selected
      (r.1, r.2, { s with selected := [] })
    else
      let r := extract s.selected
      (r.1, r.2, { s with selected := [] })
  else
    if sorted then
      let r := extractSorted s.selected
      (r.1, r.2, s)
    else
      let r := extract s.selected
      (r.1, r.2, s)

/-- The offer loop shared by `Top::compute` / `Bottom::compute` and by
manual streaming: offer every element of the input in iteration order,
keeping only the selector state. -/
def Select.offerAll (s : Select α β) (xs : List α) : Select α β :=
  xs.foldl (fun t c => (t.offer c).2) s

/-- `k::Top`: `Select` with `CompareType = std::greater<ScoreType>`. -/
def Top.new [LinearOrder β] (k : Nat) (scorer : α → β) : Select α β :=
  Select.new k scorer (fun a b => decide (a > b))

/-- `k::Bottom`: `Select` with `CompareType = std::less<ScoreType>`. -/
def Bottom.new [LinearOrder β] (k : Nat) (scorer : α → β) : Select α β :=
  Select.new k scorer (fun a b => decide (a < b))

/-- `Top::compute`: build a fresh selector, offer the whole input, then
`results(out, true, false)`; returns the emitted candidates and count. -/
def Top.compute [LinearOrder β] (k : Nat) (input : List α)
    (scorer : α → β) : List α × Nat :=
  let sel := (Top.new k scorer).offerAll input
  let r := sel.results true false
  (r.1, r.2.1)

/-- `Bottom::compute`: same one-shot loop over `k::Bottom`. -/
def Bottom.compute [LinearOrder β] (k : Nat) (input : List α)
    (scorer : α → β) : List α × Nat :=
  let sel := (Bottom.new k scorer).offerAll input
  let r := sel.results true false
  (r.1, r.2.1)

/-- Mathematical specification: the multiset of the `k` largest scores of
a list, i.e. the first `k` elements of the list sorted in non-increasing
order. -/
def kLargestScores [LinearOrder β] (k : Nat) (scores : List β) :
    Multiset β :=
  ↑((List.insertionSort (fun a b => b ≤ a) scores).take k)

/-- Mathematical specification: the multiset of the `k` smallest scores of
a list. -/
def kSmallestScores [LinearOrder β] (k : Nat) (scores : List β) :
    Multiset β :=
  ↑((List.insertionSort (fun a b => a ≤ b) scores).take k)

/-! ### Heap model lemmas -/

theorem heapPush_perm (cmp : γ → γ → Bool) (e : γ) :
    ∀ l : List γ, (heapPush cmp e l).Perm (e :: l)
  | [] => List.Perm.refl _
  | x :: xs => by
    unfold heapPush
    split
    · exact List.Perm.refl _
    · exact ((heapPush_perm cmp e xs).cons x).trans (List.Perm.swap e x xs)

theorem heapPush_length (cmp : γ → γ → Bool) (e : γ) (l : List γ) :
    (heapPush cmp e l).length = l.length + 1 :=
  (heapPush_perm cmp e l).length_eq

theorem mem_heapPush {cmp : γ → γ → Bool} {e y : γ} {l : List γ}
    (h : y ∈ heapPush cmp e l) : y = e ∨ y ∈ l := by
  have := (heapPush_perm cmp e l).mem_iff.mp h
  simpa using this

theorem heapPush_pairwise {cmp : γ → γ → Bool} {P : γ → γ → Prop}
    (htrans : ∀ a b c, P a b → P b c → P a c)
    (hiff : ∀ a b, cmp a b = true ↔ ¬ P a b)
    (htot : ∀ a b, P a b ∨ P b a) (e : γ) :
    ∀ l : List γ, l.Pairwise P → (heapPush cmp e l).Pairwise P
  | [], _ => List.pairwise_singleton P e
  | x :: xs, hl => by
    have hx : ∀ y ∈ xs, P x y := fun y hy => List.rel_of_pairwise_cons hl hy
    have hxs : xs.Pairwise P := hl.of_cons
    unfold heapPush
    split
    · rename_i hcmp
      have hex : P e x := ((htot e x).resolve_right ((hiff x e).mp hcmp))
      refine List.Pairwise.cons ?_ hl
      intro y hy
      rcases List.mem_cons.mp hy with rfl | hy
      · exact hex
      · exact htrans e x y hex (hx y hy)
    · rename_i hcmp
      have hxe : P x e := by
        have := (hiff x e).not.mp (by simp [hcmp])
        simpa using this
      refine List.Pairwise.cons ?_ (heapPush_pairwise htrans hiff htot e xs hxs)
      intro y hy
      rcases mem_heapPush hy with rfl | hy
      · exact hxe
      · exact hx y hy

theorem extract_eq (l : List (α × β)) :
    extract l = (l.map Prod.fst, l.length) := by
  induction l with
  | nil => rfl
  | cons e rest ih => simp [extract, ih]

theorem foldl_cons_fst (l : List (α × β)) :
    ∀ acc : List α, l.foldl (fun st e => e.1 :: st) acc =
      (l.map Prod.fst).reverse ++ acc := by
  induction l with
  | nil => intro acc; rfl
  | cons e rest ih => intro acc; simp [ih]

theorem extractSorted_eq (l : List (α × β)) :
    extractSorted l = ((l.map Prod.fst).reverse, l.length) := by
  simp [extractSorted, foldl_cons_fst]

/-! ### Ordered-insert surgery on the first `k` elements of a sorted list

These two lemmas describe how inserting a new score into a sorted list
changes its first `k + 1` elements: a score not beating the `(k+1)`-st
element leaves them unchanged as a multiset, while a better score pushes
that element out. -/

theorem take_orderedInsert_reject {r : β → β → Prop} [DecidableRel r]
    [IsTrans β r] [IsAntisymm β r] :
    ∀ (l : List β) (k : Nat) (b hv : β), l.Sorted r → l[k]? = some hv →
      r hv b → ((List.orderedInsert r b l).take (k + 1)).Perm (l.take (k + 1))
  | [], k, b, hv, _, hget, _ => by simp at hget
  | x :: xs, 0, b, hv, hs, hget, hr => by
    have hx : hv = x := by simpa using hget.symm
    subst hx
    by_cases hbx : r b hv
    · have hbv : b = hv := antisymm hbx hr
      subst hbv
      rw [List.orderedInsert, if_pos hbx]
      simp
    · rw [List.orderedInsert, if_neg hbx]
      simp
  | x :: xs, k + 1, b, hv, hs, hget, hr => by
    have hget' : xs[k]? = some hv := by simpa using hget
    have hvmem : hv ∈ xs := by
      rcases List.getElem?_eq_some.mp hget' with ⟨h, heq⟩
      exact heq ▸ List.getElem_mem h
    by_cases hbx : r b x
    · have hxhv : r x hv := List.rel_of_sorted_cons hs hv hvmem
      have hbhv : b = hv := antisymm (IsTrans.trans b x hv hbx hxhv) hr
      subst hbhv
      have htake : (x :: xs).take (k + 1 + 1) = (x :: xs).take (k + 1) ++ [b] := by
        rw [List.take_succ]
        simp [hget]
      rw [List.orderedInsert, if_pos hbx, htake, List.take_succ_cons]
      exact (List.perm_append_singleton b _).symm
    · rw [List.orderedInsert, if_neg hbx]
      rw [show k + 1 + 1 = k + 2 from rfl, List.take_succ_cons, List.take_succ_cons]
      exact (take_orderedInsert_reject xs k b hv hs.of_cons hget' hr).cons x

theorem take_orderedInsert_accept {r : β → β → Prop} [DecidableRel r]
    [IsTotal β r] :
    ∀ (l : List β) (k : Nat) (b hv : β), l.Sorted r → l[k]? = some hv →
      ¬ r hv b →
      ((List.orderedInsert r b l).take (k + 1) ++ [hv]).Perm
        (b :: l.take (k + 1))
  | [], k, b, hv, _, hget, _ => by simp at hget
  | x :: xs, 0, b, hv, hs, hget, hr => by
    have hx : hv = x := by simpa using hget.symm
    subst hx
    by_cases hbx : r b hv
    · rw [List.orderedInsert, if_pos hbx]
      simp
    · exact absurd ((total_of r b hv).resolve_left hbx) hr
  | x :: xs, k + 1, b, hv, hs, hget, hr => by
    have hget' : xs[k]? = some hv := by simpa using hget
    by_cases hbx : r b x
    · have htake : (x :: xs).take (k + 1 + 1) = (x :: xs).take (k + 1) ++ [hv] := by
        rw [List.take_succ]
        simp [hget]
      rw [List.orderedInsert, if_pos hbx, htake, List.take_succ_cons]
      exact List.Perm.refl _
    · rw [List.orderedInsert, if_neg hbx]
      rw [show k + 1 + 1 = k + 2 from rfl, List.take_succ_cons, List.take_succ_cons,
        List.cons_append]
      exact ((take_orderedInsert_accept xs k b hv hs.of_cons hget' hr).cons x).trans
        (List.Perm.swap b x _)

/-- Appending one element to the input and sorting is the same as sorting
first and then doing one ordered insert. -/
theorem insertionSort_append_singleton {r : β → β → Prop} [DecidableRel r]
    [IsTotal β r] [IsTrans β r] [IsAntisymm β r] (l : List β) (b : β) :
    List.insertionSort r (l ++ [b]) =
      List.orderedInsert r b (List.insertionSort r l) := by
  refine List.eq_of_perm_of_sorted ?_ (List.sorted_insertionSort r _)
    (List.Sorted.orderedInsert b _ (List.sorted_insertionSort r l))
  exact ((List.perm_insertionSort r _).trans
    ((List.perm_append_singleton b l).trans
      ((List.perm_insertionSort r l).symm.cons b))).trans
    (List.perm_orderedInsert r b _).symm

/-! ### Case equations for `Select.offer` -/

theorem offer_of_k_eq_zero {s : Select α β} (c : α) (h : s.k = 0) :
    s.offer c = (false, s) := by
  unfold Select.offer
  rw [if_pos h]

theorem offer_of_lt {s : Select α β} (c : α) (h0 : ¬ s.k = 0)
    (h : s.selected.length < s.k) :
    s.offer c =
      (true, { s with
        selected := heapPush s.scoredCompare (c, s.scorer c) s.selected }) := by
  unfold Select.offer
  rw [if_neg h0, if_pos h]

theorem offer_of_full_accept {s : Select α β} {w : α × β} {rest : List (α × β)}
    (c : α) (h0 : ¬ s.k = 0) (h : ¬ s.selected.length < s.k)
    (hsel : s.selected = w :: rest)
    (hcmp : s.scoredCompare (c, s.scorer c) w = true) :
    s.offer c =
      (true, { s with
        selected := heapPush s.scoredCompare (c, s.scorer c) rest }) := by
  unfold Select.offer
  rw [if_neg h0, if_neg h, hsel]
  simp only [hcmp, if_true]

theorem offer_of_full_reject {s : Select α β} {w : α × β} {rest : List (α × β)}
    (c : α) (h0 : ¬ s.k = 0) (h : ¬ s.selected.length < s.k)
    (hsel : s.selected = w :: rest)
    (hcmp : ¬ s.scoredCompare (c, s.scorer c) w = true) :
    s.offer c = (false, s) := by
  unfold Select.offer
  rw [if_neg h0, if_neg h, hsel]
  simp only [hcmp, if_false, Bool.not_eq_true] at *
  simp [hcmp]

/-- `offer` never touches the capacity, scoring function, or policy. -/
theorem offer_fields (s : Select α β) (c : α) :
    (s.offer c).2.k = s.k ∧ (s.offer c).2.scorer = s.scorer ∧
      (s.offer c).2.compare = s.compare := by
  unfold Select.offer
  split
  · exact ⟨rfl, rfl, rfl⟩
  · split
    · exact ⟨rfl, rfl, rfl⟩
    · split
      · exact ⟨rfl, rfl, rfl⟩
      · split
        · exact ⟨rfl, rfl, rfl⟩
        · exact ⟨rfl, rfl, rfl⟩

theorem offerAll_fields (s : Select α β) (xs : List α) :
    (s.offerAll xs).k = s.k ∧ (s.offerAll xs).scorer = s.scorer ∧
      (s.offerAll xs).compare = s.compare := by
  induction xs generalizing s with
  | nil => exact ⟨rfl, rfl, rfl⟩
  | cons x xs ih =>
    have h1 := offer_fields s x
    have h2 := ih (s.offer x).2
    exact ⟨by rw [Select.offerAll, List.foldl_cons] at *; rw [h2.1, h1.1],
      by rw [Select.offerAll, List.foldl_cons] at *; rw [h2.2.1, h1.2.1],
      by rw [Select.offerAll, List.foldl_cons] at *; rw [h2.2.2, h1.2.2]⟩

/-! ### The streaming invariant -/

/-- Invariant tying a selector state to its offer history: the retained
scores are a permutation of the first `k` scores in `r`-sorted order
(best first) of everything seen, the heap list is in pop order (worst
first), each retained entry carries the score of its candidate, and the
retained count is `min k (number of offers)`. -/
def heapInv (r : β → β → Prop) [DecidableRel r] (s : Select α β)
    (seen : List α) : Prop :=
  (s.selected.map Prod.snd).Perm
      ((List.insertionSort r (seen.map s.scorer)).take s.k)
    ∧ s.selected.Pairwise (fun e1 e2 => r e2.2 e1.2)
    ∧ (∀ e ∈ s.selected, e.2 = s.scorer e.1)
    ∧ s.selected.length = min s.k seen.length

theorem heapInv_new (r : β → β → Prop) [DecidableRel r] (k : Nat)
    (scorer : α → β) (cmp : β → β → Bool) :
    heapInv r (Select.new k scorer cmp) [] := by
  refine ⟨?_, List.Pairwise.nil, ?_, ?_⟩ <;> simp [Select.new]

/-- The invariant is preserved by a single offer. -/
theorem offer_heapInv {r : β → β → Prop} [DecidableRel r]
    [IsTotal β r] [IsTrans β r] [IsAntisymm β r]
    {s : Select α β} {seen : List α} (c : α)
    (hC : ∀ x y, s.compare x y = true ↔ ¬ r y x)
    (h : heapInv r s seen) :
    heapInv r (s.offer c).2 (seen ++ [c]) := by
  obtain ⟨h1, h2, h3, h4⟩ := h
  have htransP : ∀ a b d : α × β, r b.2 a.2 → r d.2 b.2 → r d.2 a.2 :=
    fun a b d hab hbd => IsTrans.trans d.2 b.2 a.2 hbd hab
  have hiffP : ∀ a b : α × β,
      s.scoredCompare a b = true ↔ ¬ r b.2 a.2 := fun a b => hC a.2 b.2
  have htotP : ∀ a b : α × β, r b.2 a.2 ∨ r a.2 b.2 :=
    fun a b => total_of r b.2 a.2
  by_cases hk : s.k = 0
  · rw [offer_of_k_eq_zero c hk]
    have hsel : s.selected = [] := by
      rw [← List.length_eq_zero, h4, hk]
      simp
    exact ⟨by rw [hsel, hk]; simp, h2, h3, by rw [hsel, hk]; simp⟩
  · have hS' : (seen ++ [c]).map s.scorer =
        seen.map s.scorer ++ [s.scorer c] := by simp
    have hlenL : (List.insertionSort r (seen.map s.scorer)).length =
        seen.length := by
      rw [List.length_insertionSort, List.length_map]
    by_cases hlen : s.selected.length < s.k
    · -- below capacity: unconditional insert
      rw [offer_of_lt c hk hlen]
      have hn : seen.length < s.k := by
        rw [h4] at hlen
        exact (min_lt_iff.mp hlen).resolve_left (lt_irrefl _)
      refine ⟨?_, ?_, ?_, ?_⟩
      · show ((heapPush s.scoredCompare (c, s.scorer c) s.selected).map
            Prod.snd).Perm _
        have hmapP := (heapPush_perm s.scoredCompare (c, s.scorer c)
          s.selected).map Prod.snd
        rw [hS', insertionSort_append_singleton]
        rw [List.take_of_length_le (by
          rw [List.orderedInsert_length, hlenL]; exact hn)]
        rw [List.take_of_length_le (by rw [hlenL]; exact le_of_lt hn)] at h1
        exact (hmapP.trans (h1.cons (s.scorer c))).trans
          (List.perm_orderedInsert r (s.scorer c) _).symm
      · exact heapPush_pairwise htransP hiffP htotP _ _ h2
      · intro e he
        rcases mem_heapPush he with rfl | he
        · rfl
        · exact h3 e he
      · show (heapPush s.scoredCompare (c, s.scorer c) s.selected).length = _
        rw [heapPush_length, h4, List.length_append]
        simp only [List.length_singleton]
        rw [min_eq_right (le_of_lt hn), min_eq_right hn]
    · -- at capacity: compare against the worst retained entry
      have hlenk : s.selected.length = s.k :=
        le_antisymm (h4 ▸ min_le_left _ _) (Nat.le_of_not_lt hlen)
      have hkn : s.k ≤ seen.length := by
        have : min s.k seen.length = s.k := h4 ▸ hlenk
        exact min_eq_left_iff.mp this
      rcases hsel : s.selected with _ | ⟨w, rest⟩
      · exact absurd (hlenk.symm.trans (by rw [hsel]; rfl)) hk
      · rw [hsel] at h1 h2 hlenk
        have h3' : ∀ e ∈ w :: rest, e.2 = s.scorer e.1 := by
          rw [← hsel]; exact h3
        -- identify the worst retained score inside the sorted spec list
        have hsorted_rev :
            (((w :: rest).map Prod.snd).reverse).Sorted r := by
          refine List.pairwise_reverse.mpr ?_
          exact h2.map Prod.snd (fun a b hab => hab)
        have hsorted_take :
            ((List.insertionSort r (seen.map s.scorer)).take s.k).Sorted r :=
          List.Pairwise.sublist (List.take_sublist _ _)
            (List.sorted_insertionSort r _)
        have heq : ((w :: rest).map Prod.snd).reverse =
            (List.insertionSort r (seen.map s.scorer)).take s.k :=
          List.eq_of_perm_of_sorted
            ((List.reverse_perm _).trans h1) hsorted_rev hsorted_take
        have hk1 : s.k - 1 + 1 = s.k :=
          Nat.succ_pred_eq_of_pos (Nat.pos_of_ne_zero hk)
        have hgetw :
            (List.insertionSort r (seen.map s.scorer))[s.k - 1]? =
              some w.2 := by
          have h5 : ((List.insertionSort r (seen.map s.scorer)).take
              s.k).getLast? = some w.2 := by
            rw [← heq, List.getLast?_reverse]
            rfl
          rw [List.getLast?_eq_getElem?, List.length_take, hlenL,
            min_eq_left hkn, List.getElem?_take,
            if_pos (Nat.sub_lt (Nat.pos_of_ne_zero hk) one_pos)] at h5
          exact h5
        by_cases hcmpb : s.scoredCompare (c, s.scorer c) w = true
        · -- strictly better than the worst: evict and insert
          rw [offer_of_full_accept c hk hlen hsel hcmpb]
          have hnr : ¬ r w.2 (s.scorer c) := (hC (s.scorer c) w.2).mp hcmpb
          have hcore := take_orderedInsert_accept
            (List.insertionSort r (seen.map s.scorer)) (s.k - 1)
            (s.scorer c) w.2 (List.sorted_insertionSort r _) hgetw hnr
          rw [hk1] at hcore
          refine ⟨?_, ?_, ?_, ?_⟩
          · show ((heapPush s.scoredCompare (c, s.scorer c) rest).map
              Prod.snd).Perm _
            rw [hS', insertionSort_append_singleton]
            have hstep1 : (w.2 :: (List.orderedInsert r (s.scorer c)
                (List.insertionSort r (seen.map s.scorer))).take s.k).Perm
                (w.2 :: s.scorer c :: rest.map Prod.snd) := by
              refine ((List.perm_append_singleton _ _).symm.trans
                hcore).trans ?_
              exact ((h1.symm).cons (s.scorer c)).trans
                (List.Perm.swap w.2 (s.scorer c) _)
            have hstep2 := hstep1.cons_inv
            exact ((heapPush_perm _ _ _).map Prod.snd).trans hstep2.symm
          · exact heapPush_pairwise htransP hiffP htotP _ _ h2.of_cons
          · intro e he
            rcases mem_heapPush he with rfl | he
            · rfl
            · exact h3' e (List.mem_cons_of_mem w he)
          · show (heapPush s.scoredCompare (c, s.scorer c) rest).length = _
            rw [heapPush_length]
            have : rest.length + 1 = s.k := by simpa using hlenk
            rw [this, List.length_append]
            simp only [List.length_singleton]
            rw [min_eq_left (le_trans hkn (Nat.le_succ _))]
        · -- not better: reject, state unchanged
          rw [offer_of_full_reject c hk hlen hsel hcmpb]
          have hrwb : r w.2 (s.scorer c) := by
            have := (hC (s.scorer c) w.2).not.mp hcmpb
            exact not_not.mp this
          have hcore := take_orderedInsert_reject
            (List.insertionSort r (seen.map s.scorer)) (s.k - 1)
            (s.scorer c) w.2 (List.sorted_insertionSort r _) hgetw hrwb
          rw [hk1] at hcore
          refine ⟨?_, ?_, h3, ?_⟩
          · rw [hsel, hS', insertionSort_append_singleton]
            exact h1.trans hcore.symm
          · rw [hsel]; exact h2
          · rw [hsel, List.length_append]
            simp only [List.length_singleton]
            rw [show (w :: rest).length = s.k from hlenk,
              min_eq_left (le_trans hkn (Nat.le_succ _))]

/-- The invariant is preserved by any sequence of offers. -/
theorem offerAll_heapInv {r : β → β → Prop} [DecidableRel r]
    [IsTotal β r] [IsTrans β r] [IsAntisymm β r] :
    ∀ (xs seen : List α) (s : Select α β),
      (∀ x y, s.compare x y = true ↔ ¬ r y x) → heapInv r s seen →
      heapInv r (s.offerAll xs) (seen ++ xs)
  | [], seen, s, _, h => by simpa [Select.offerAll] using h
  | x :: xs, seen, s, hC, h => by
    have hstep := offer_heapInv x hC h
    have hfields := offer_fields s x
    have hC' : ∀ a b, (s.offer x).2.compare a b = true ↔ ¬ r b a :=
      fun a b => hfields.2.2 ▸ hC a b
    have hrec := offerAll_heapInv xs (seen ++ [x]) (s.offer x).2 hC' hstep
    rw [Select.offerAll, List.foldl_cons]
    rw [List.append_assoc] at hrec
    simpa [Select.offerAll] using hrec

/-! ### Instantiation at the two policies -/

theorem top_compare_iff [LinearOrder β] (k : Nat) (scorer : α → β) :
    ∀ x y : β, (Top.new (α := α) k scorer).compare x y = true ↔
      ¬ (fun a b : β => b ≤ a) y x := by
  intro x y
  simp [Top.new, Select.new]

theorem bottom_compare_iff [LinearOrder β] (k : Nat) (scorer : α → β) :
    ∀ x y : β, (Bottom.new (α := α) k scorer).compare x y = true ↔
      ¬ (fun a b : β => a ≤ b) y x := by
  intro x y
  simp [Bottom.new, Select.new]

/-- State of a `k::Top` selector after streaming `xs`: retained scores are
the `k` largest of the scores of `xs`, the heap list ascends in score
(worst first), entries carry their candidate's score, and the count is
`min k |xs|`. -/
theorem top_selected_spec [LinearOrder β] (k : Nat) (scorer : α → β)
    (xs : List α) :
    ((((Top.new (α := α) k scorer).offerAll xs).selected.map Prod.snd).Perm
        ((List.insertionSort (fun a b : β => b ≤ a) (xs.map scorer)).take k))
      ∧ ((Top.new (α := α) k scorer).offerAll xs).selected.Pairwise
          (fun e1 e2 => e1.2 ≤ e2.2)
      ∧ (∀ e ∈ ((Top.new (α := α) k scorer).offerAll xs).selected,
          e.2 = scorer e.1)
      ∧ ((Top.new (α := α) k scorer).offerAll xs).selected.length
          = min k xs.length := by
  have hf := offerAll_fields (Top.new (α := α) k scorer) xs
  have hk' : ((Top.new (α := α) k scorer).offerAll xs).k = k := hf.1.trans rfl
  have hs' : ((Top.new (α := α) k scorer).offerAll xs).scorer = scorer :=
    hf.2.1.trans rfl
  obtain ⟨h1, h2, h3, h4⟩ := offerAll_heapInv (r := fun a b : β => b ≤ a)
    xs [] (Top.new k scorer) (top_compare_iff k scorer)
    (heapInv_new _ k scorer _)
  rw [hk', hs', List.nil_append] at h1
  rw [hk', List.nil_append] at h4
  rw [hs'] at h3
  exact ⟨h1, h2, h3, h4⟩

/-- State of a `k::Bottom` selector after streaming `xs`: retained scores
are the `k` smallest, the heap list descends in score (worst first). -/
theorem bottom_selected_spec [LinearOrder β] (k : Nat) (scorer : α → β)
    (xs : List α) :
    ((((Bottom.new (α := α) k scorer).offerAll xs).selected.map Prod.snd).Perm
        ((List.insertionSort (fun a b : β => a ≤ b) (xs.map scorer)).take k))
      ∧ ((Bottom.new (α := α) k scorer).offerAll xs).selected.Pairwise
          (fun e1 e2 => e2.2 ≤ e1.2)
      ∧ (∀ e ∈ ((Bottom.new (α := α) k scorer).offerAll xs).selected,
          e.2 = scorer e.1)
      ∧ ((Bottom.new (α := α) k scorer).offerAll xs).selected.length
          = min k xs.length := by
  have hf := offerAll_fields (Bottom.new (α := α) k scorer) xs
  have hk' : ((Bottom.new (α := α) k scorer).offerAll xs).k = k :=
    hf.1.trans rfl
  have hs' : ((Bottom.new (α := α) k scorer).offerAll xs).scorer = scorer :=
    hf.2.1.trans rfl
  obtain ⟨h1, h2, h3, h4⟩ := offerAll_heapInv (r := fun a b : β => a ≤ b)
    xs [] (Bottom.new k scorer) (bottom_compare_iff k scorer)
    (heapInv_new _ k scorer _)
  rw [hk', hs', List.nil_append] at h1
  rw [hk', List.nil_append] at h4
  rw [hs'] at h3
  exact ⟨h1, h2, h3, h4⟩

/-! ### Normal forms for result extraction -/

theorem results_eq (s : Select α β) (sorted p : Bool) :
    s.results sorted p =
      (if sorted then (s.selected.map Prod.fst).reverse
        else s.selected.map Prod.fst,
       s.selected.length,
       if p then { s with selected := [] } else s) := by
  unfold Select.results
  rcases p <;> rcases sorted <;>
    simp [extract_eq, extractSorted_eq]

theorem top_compute_eq [LinearOrder β] (k : Nat) (xs : List α)
    (scorer : α → β) :
    Top.compute k xs scorer =
      ((((Top.new (α := α) k scorer).offerAll xs).selected.map
          Prod.fst).reverse,
        ((Top.new (α := α) k scorer).offerAll xs).selected.length) := by
  simp [Top.compute, results_eq]

theorem bottom_compute_eq [LinearOrder β] (k : Nat) (xs : List α)
    (scorer : α → β) :
    Bottom.compute k xs scorer =
      ((((Bottom.new (α := α) k scorer).offerAll xs).selected.map
          Prod.fst).reverse,
        ((Bottom.new (α := α) k scorer).offerAll xs).selected.length) := by
  simp [Bottom.compute, results_eq]

/-- Mapping the scorer over emitted candidates recovers the retained
scores, because each retained entry carries its candidate's score. -/
theorem emit_scores_eq {s : Select α β} {f : α → β}
    (h3 : ∀ e ∈ s.selected, e.2 = f e.1) :
    ((s.selected.map Prod.fst).reverse).map f =
      (s.selected.map Prod.snd).reverse := by
  rw [List.map_reverse, List.map_map]
  congr 1
  exact List.map_congr_left (fun e he => (h3 e he).symm)

theorem compute_scores_multiset {s : Select α β} {f : α → β}
    {spec : List β} (h3 : ∀ e ∈ s.selected, e.2 = f e.1)
    (h1 : (s.selected.map Prod.snd).Perm spec) :
    (↑(((s.selected.map Prod.fst).reverse).map f) : Multiset β) = ↑spec := by
  rw [emit_scores_eq h3, Multiset.coe_reverse]
  exact Multiset.coe_eq_coe.mpr h1

/-- Length bookkeeping for a single offer, for an arbitrary state. -/
theorem offer_length (s : Select α β) (c : α) :
    (s.offer c).2.selected.length =
      if s.k = 0 then s.selected.length
      else if s.selected.length < s.k then s.selected.length + 1
      else s.selected.length := by
  by_cases hk : s.k = 0
  · rw [offer_of_k_eq_zero c hk, if_pos hk]
  · rw [if_neg hk]
    by_cases hlen : s.selected.length < s.k
    · rw [offer_of_lt c hk hlen, if_pos hlen]
      exact heapPush_length _ _ _
    · rw [if_neg hlen]
      rcases hsel : s.selected with _ | ⟨w, rest⟩
      · rw [hsel] at hlen
        exact absurd (Nat.pos_of_ne_zero hk) hlen
      · by_cases hc : s.scoredCompare (c, s.scorer c) w = true
        · rw [offer_of_full_accept c hk hlen hsel hc]
          show (heapPush _ _ rest).length = _
          rw [heapPush_length, List.length_cons]
        · rw [offer_of_full_reject c hk hlen hsel hc]
          show s.selected.length = _
          rw [hsel]

theorem offerAll_length {s : Select α β} {m : Nat}
    (h : s.selected.length = min s.k m) :
    ∀ xs : List α,
      (s.offerAll xs).selected.length = min s.k (m + xs.length)
  | [] => by simpa [Select.offerAll] using h
  | x :: xs => by
    have hstep : (s.offer x).2.selected.length =
        min (s.offer x).2.k (m + 1) := by
      rw [(offer_fields s x).1, offer_length, h]
      by_cases hk : s.k = 0
      · simp [hk]
      · rw [if_neg hk]
        by_cases hm : m < s.k
        · rw [min_eq_right (le_of_lt hm), if_pos hm,
            min_eq_right (Nat.succ_le_of_lt hm)]
        · have hks : s.k ≤ m := Nat.le_of_not_lt hm
          rw [min_eq_left hks, if_neg (lt_irrefl _),
            min_eq_left (le_trans hks (Nat.le_succ _))]
    have hrec := offerAll_length (s := (s.offer x).2) (m := m + 1) hstep xs
    rw [(offer_fields s x).1] at hrec
    rw [Select.offerAll, List.foldl_cons]
    rw [show m + 1 + xs.length = m + (x :: xs).length by
      simp [Nat.add_comm, Nat.add_assoc, Nat.add_left_comm]]  at hrec
    exact hrec

/-! ### Claim theorems -/

/-- C1: for every finite input, capacity `K`, and scoring function,
`Top::compute` emits exactly the `K` largest scores of the input — it
emits `min K |input|` candidates (and reports that count), and the
multiset of their scores is the multiset of the `K` largest input
scores — and `Bottom::compute` emits exactly the `K` smallest. -/
theorem select_k_C1 [LinearOrder β] (k : Nat) (xs : List α)
    (scorer : α → β) :
    (Top.compute k xs scorer).1.length = min k xs.length
    ∧ (Top.compute k xs scorer).2 = min k xs.length
    ∧ (↑((Top.compute k xs scorer).1.map scorer) : Multiset β) =
        kLargestScores k (xs.map scorer)
    ∧ (Bottom.compute k xs scorer).1.length = min k xs.length
    ∧ (Bottom.compute k xs scorer).2 = min k xs.length
    ∧ (↑((Bottom.compute k xs scorer).1.map scorer) : Multiset β) =
        kSmallestScores k (xs.map scorer) := by
  obtain ⟨ht1, _, ht3, ht4⟩ := top_selected_spec k scorer xs
  obtain ⟨hb1, _, hb3, hb4⟩ := bottom_selected_spec k scorer xs
  rw [top_compute_eq, bottom_compute_eq]
  exact ⟨by simpa using ht4, ht4, compute_scores_multiset ht3 ht1,
    by simpa using hb4, hb4, compute_scores_multiset hb3 hb1⟩

/-- C2: with `K > 0`, an offer below capacity inserts the scored
candidate and returns true; at capacity (the heap is `worst :: rest`,
with the head being `top()`, the worst retained entry) the offer returns
true and replaces the worst exactly when the new entry's score is
strictly better under the comparison policy, and otherwise returns false
leaving the selector, in particular its retained set, unchanged. -/
theorem select_k_C2 (s : Select α β) (c : α) (hk : 0 < s.k) :
    (s.selected.length < s.k →
      (s.offer c).1 = true
      ∧ (s.offer c).2.selected.Perm ((c, s.scorer c) :: s.selected))
    ∧ (∀ w rest, s.selected = w :: rest → ¬ s.selected.length < s.k →
        ((s.offer c).1 = true ↔ s.scoredCompare (c, s.scorer c) w = true)
        ∧ (s.scoredCompare (c, s.scorer c) w = true →
            (s.offer c).2.selected.Perm ((c, s.scorer c) :: rest))
        ∧ (¬ s.scoredCompare (c, s.scorer c) w = true →
            s.offer c = (false, s))) := by
  have hk0 : ¬ s.k = 0 := Nat.pos_iff_ne_zero.mp hk
  constructor
  · intro hlt
    rw [offer_of_lt c hk0 hlt]
    exact ⟨rfl, heapPush_perm _ _ _⟩
  · intro w rest hsel hge
    by_cases hc : s.scoredCompare (c, s.scorer c) w = true
    · rw [offer_of_full_accept c hk0 hge hsel hc]
      exact ⟨⟨fun _ => hc, fun _ => rfl⟩,
        fun _ => heapPush_perm _ _ _, fun hn => absurd hc hn⟩
    · rw [offer_of_full_reject c hk0 hge hsel hc]
      exact ⟨⟨fun h => absurd h (by simp), fun hcc => absurd hcc hc⟩,
        fun hcc => absurd hcc hc, fun _ => rfl⟩

/-- C3: `results` with `preserveSelection = false` (the spec's
`destructive = false`) works on a copy: the selector state afterwards is
exactly the state before, so a second identical call returns the same
output and count, and later offers still compete against everything
previously retained. -/
theorem select_k_C3 (s : Select α β) (sorted : Bool) :
    (s.results sorted false).2.2 = s
    ∧ ((s.results sorted false).2.2.results sorted false).1
        = (s.results sorted false).1
    ∧ ((s.results sorted false).2.2.results sorted false).2.1
        = (s.results sorted false).2.1 := by
  have h : (s.results sorted false).2.2 = s := by
    simp [results_eq]
  exact ⟨h, by rw [h], by rw [h]⟩

/-- C4: `results` with `preserveSelection = true` (the spec's
`destructive = true`) drains the heap: afterwards the state is the same
selector with an empty heap, an immediately following `results` call with
any flags emits an empty sequence with count 0, and subsequent offers
accumulate from an empty retained set. -/
theorem select_k_C4 (s : Select α β) (sorted sorted2 p2 : Bool) :
    (s.results sorted true).2.2 = { s with selected := [] }
    ∧ ((s.results sorted true).2.2.results sorted2 p2).1 = []
    ∧ ((s.results sorted true).2.2.results sorted2 p2).2.1 = 0 := by
  have h : (s.results sorted true).2.2 = { s with selected := [] } := by
    simp [results_eq]
  refine ⟨h, ?_, ?_⟩ <;> rw [h] <;> simp [results_eq]

/-- C5: `Top::compute` (resp. `Bottom::compute`) produces exactly the
output sequence and count of offering the input one-by-one in order to a
fresh selector and then calling `results(sorted = true,
preserveSelection = false)` — `compute` is literally that loop. -/
theorem select_k_C5 [LinearOrder β] (k : Nat) (xs : List α)
    (scorer : α → β) :
    (Top.compute k xs scorer).1 =
        (((Top.new (α := α) k scorer).offerAll xs).results true false).1
    ∧ (Top.compute k xs scorer).2 =
        (((Top.new (α := α) k scorer).offerAll xs).results true false).2.1
    ∧ (Bottom.compute k xs scorer).1 =
        (((Bottom.new (α := α) k scorer).offerAll xs).results true false).1
    ∧ (Bottom.compute k xs scorer).2 =
        (((Bottom.new (α := α) k scorer).offerAll xs).results true false).2.1 :=
  ⟨rfl, rfl, rfl, rfl⟩

/-- C6: on any state reachable by offers, `results` with `sorted = true`
(either preserve flag) emits candidates best-to-worst: scores
non-increasing for a Top selector, non-decreasing for a Bottom one. -/
theorem select_k_C6 [LinearOrder β] (k : Nat) (xs : List α)
    (scorer : α → β) (p : Bool) :
    ((((Top.new (α := α) k scorer).offerAll xs).results true p).1.map
        scorer).Pairwise (fun a b => b ≤ a)
    ∧ ((((Bottom.new (α := α) k scorer).offerAll xs).results true p).1.map
        scorer).Pairwise (fun a b => a ≤ b) := by
  obtain ⟨_, ht2, ht3, _⟩ := top_selected_spec k scorer xs
  obtain ⟨_, hb2, hb3, _⟩ := bottom_selected_spec k scorer xs
  rw [results_eq, results_eq]
  simp only [if_true]
  constructor
  · rw [emit_scores_eq ht3]
    refine List.pairwise_reverse.mpr ?_
    exact ht2.map Prod.snd (fun a b hab => hab)
  · rw [emit_scores_eq hb3]
    refine List.pairwise_reverse.mpr ?_
    exact hb2.map Prod.snd (fun a b hab => hab)

/-- C7: after any sequence of offers to a fresh selector (any policy, so
in particular Top and Bottom), the retained count equals
`min K (number of offers)`, hence is at most `K` after each offer. -/
theorem select_k_C7 (k : Nat) (scorer : α → β) (cmp : β → β → Bool)
    (xs : List α) :
    ((Select.new k scorer cmp).offerAll xs).selected.length
        = min k xs.length
    ∧ ((Select.new k scorer cmp).offerAll xs).selected.length ≤ k := by
  have h := offerAll_length (s := Select.new (α := α) k scorer cmp)
    (m := 0) (by simp [Select.new]) xs
  simp only [Select.new] at h
  rw [Nat.zero_add] at h
  exact ⟨h, h ▸ min_le_left _ _⟩

/-- C8: a selector with capacity 0 rejects every offer (returning false,
with the state untouched), and `results` on a zero-capacity selector
after any offer history emits an empty sequence and returns count 0. -/
theorem select_k_C8 (s : Select α β) (c : α) (hk : s.k = 0)
    (scorer : α → β) (cmp : β → β → Bool) (xs : List α)
    (sorted p : Bool) :
    s.offer c = (false, s)
    ∧ (((Select.new 0 scorer cmp).offerAll xs).results sorted p).1 = []
    ∧ (((Select.new 0 scorer cmp).offerAll xs).results sorted p).2.1 = 0 := by
  have hz : ((Select.new (α := α) 0 scorer cmp).offerAll xs).selected
      = [] := by
    rw [← List.length_eq_zero]
    have h := offerAll_length (s := Select.new (α := α) 0 scorer cmp)
      (m := 0) (by simp [Select.new]) xs
    simpa [Select.new] using h
  refine ⟨offer_of_k_eq_zero c hk, ?_, ?_⟩ <;> rw [results_eq, hz] <;> simp

/-! ### Fallible scoring functions

The error-handling contract concerns a scoring function that can fail (a
C++ exception thrown while computing the score).  `SelectE` is the same
embedding of `Select` with the scorer in `Except`: `offer` returns the
propagated failure or the boolean result, paired with the selector state
after the call.  It mirrors the source line by line: the score is
computed after the `k_ == 0` check and before any heap mutation, so a
failure escapes with the heap untouched. -/

structure SelectE (α β ε : Type) where
  k : Nat
  scorer : α → Except ε β
  compare : β → β → Bool
  selected : List (α × β)

def SelectE.new (k : Nat) (scorer : α → Except ε β)
    (compare : β → β → Bool) : SelectE α β ε :=
  ⟨k, scorer, compare, []⟩

def SelectE.scoredCompare (s : SelectE α β ε) (c1 c2 : α × β) : Bool :=
  s.compare c1.2 c2.2

/-- `Select::offer` with a fallible scorer. -/
def SelectE.offer (s : SelectE α β ε) (c : α) :
    Except ε Bool × SelectE α β ε :=
  if s.k = 0 then (.ok false, s)
  else
    match s.scorer c with
    | .error e => (.error e, s)
    | .ok score =>
      if s.selected.length < s.k then
        (.ok true,
          { s with selected := heapPush s.scoredCompare (c, score) s.selected })
      else
        match s.selected with
        | [] => (.ok false, s)
        | worst :: rest =>
          if s.scoredCompare (c, score) worst then
            (.ok true,
              { s with selected := heapPush s.scoredCompare (c, score) rest })
          else
            (.ok false, s)

/-- The `compute` offer loop with a fallible scorer: the first failure
unwinds out of the loop. -/
def SelectE.offerAll (s : SelectE α β ε) : List α → Except ε (SelectE α β ε)
  | [] => .ok s
  | x :: xs =>
    match s.offer x with
    | (Except.error e, _) => .error e
    | (Except.ok _, s') => s'.offerAll xs

/-- `Select::results` for the fallible-scorer embedding (extraction never
consults the scorer, so it cannot fail). -/
def SelectE.results (s : SelectE α β ε) (sorted preserveSelection : Bool) :
    List α × Nat × SelectE α β ε :=
  if preserveSelection then
    if sorted then
      let r := extractSorted s.selected
      (r.1, r.2, { s with selected := [] })
    else
      let r := extract s.selected
      (r.1, r.2, { s with selected := [] })
  else
    if sorted then
      let r := extractSorted s.selected
      (r.1, r.2, s)
    else
      let r := extract s.selected
      (r.1, r.2, s)

def TopE.new [LinearOrder β] (k : Nat) (scorer : α → Except ε β) :
    SelectE α β ε :=
  SelectE.new k scorer (fun a b => decide (a > b))

def BottomE.new [LinearOrder β] (k : Nat) (scorer : α → Except ε β) :
    SelectE α β ε :=
  SelectE.new k scorer (fun a b => decide (a < b))

/-- `Top::compute` with a fallible scorer: a failure in the loop unwinds
out of `compute` (the local selector is discarded). -/
def TopE.compute [LinearOrder β] (k : Nat) (input : List α)
    (scorer : α → Except ε β) : Except ε (List α × Nat) :=
  match (TopE.new k scorer).offerAll input with
  | .error e => .error e
  | .ok sel =>
    let r := sel.results true false
    .ok (r.1, r.2.1)

/-- `Bottom::compute` with a fallible scorer. -/
def BottomE.compute [LinearOrder β] (k : Nat) (input : List α)
    (scorer : α → Except ε β) : Except ε (List α × Nat) :=
  match (BottomE.new k scorer).offerAll input with
  | .error e => .error e
  | .ok sel =>
    let r := sel.results true false
    .ok (r.1, r.2.1)

theorem offerE_of_k_eq_zero {s : SelectE α β ε} (c : α) (h : s.k = 0) :
    s.offer c = (.ok false, s) := by
  unfold SelectE.offer
  rw [if_pos h]

theorem offerE_of_error {s : SelectE α β ε} {c : α} {e : ε}
    (hk : ¬ s.k = 0) (he : s.scorer c = .error e) :
    s.offer c = (.error e, s) := by
  unfold SelectE.offer
  rw [if_neg hk, he]

theorem offerE_fields (s : SelectE α β ε) (c : α) :
    (s.offer c).2.k = s.k ∧ (s.offer c).2.scorer = s.scorer := by
  unfold SelectE.offer
  split
  · exact ⟨rfl, rfl⟩
  · split
    · exact ⟨rfl, rfl⟩
    · split
      · exact ⟨rfl, rfl⟩
      · split
        · exact ⟨rfl, rfl⟩
        · split
          · exact ⟨rfl, rfl⟩
          · exact ⟨rfl, rfl⟩

theorem offerAllE_error_reached {e : ε} {c : α} :
    ∀ (pre : List α) (s s' : SelectE α β ε), s.offerAll pre = .ok s' →
      ¬ s.k = 0 → s.scorer c = .error e → ∀ post : List α,
      s.offerAll (pre ++ c :: post) = .error e
  | [], s, s', _, hk, he, post => by
    show s.offerAll (c :: post) = .error e
    unfold SelectE.offerAll
    rw [offerE_of_error hk he]
  | x :: pre, s, s', hok, hk, he, post => by
    rcases hx : s.offer x with ⟨r, s1⟩
    rcases r with e' | b
    · unfold SelectE.offerAll at hok
      rw [hx] at hok
      exact absurd hok (by simp)
    · have hf := offerE_fields s x
      rw [hx] at hf
      have hok' : s1.offerAll pre = .ok s' := by
        unfold SelectE.offerAll at hok
        rw [hx] at hok
        exact hok
      show s.offerAll ((x :: pre) ++ c :: post) = .error e
      rw [List.cons_append]
      unfold SelectE.offerAll
      rw [hx]
      exact offerAllE_error_reached pre s1 s' hok' (hf.1 ▸ hk)
        (hf.2 ▸ he) post

/-- C9: when the scoring function fails while `offer` computes a score
(which requires `K ≠ 0`, since `offer` returns before scoring when
`K = 0`), the failure propagates unmodified to the caller of `offer`, and
the selector state — in particular its retained set — is exactly what it
was before the call, because the source computes the score before any
heap mutation; the same failure propagates unmodified out of the
`compute` loop of `Top::compute` / `Bottom::compute` once the loop
reaches the failing candidate. -/
theorem select_k_C9 [LinearOrder β] (s : SelectE α β ε) (c : α) (e : ε)
    (hk : ¬ s.k = 0) (he : s.scorer c = .error e) :
    s.offer c = (.error e, s)
    ∧ (∀ pre post s', s.offerAll pre = .ok s' →
        s.offerAll (pre ++ c :: post) = .error e)
    ∧ (∀ (k : Nat) (f : α → Except ε β) (pre post : List α)
        (s' : SelectE α β ε), ¬ k = 0 → f c = .error e →
        (TopE.new (α := α) k f).offerAll pre = .ok s' →
        TopE.compute k (pre ++ c :: post) f = .error e)
    ∧ (∀ (k : Nat) (f : α → Except ε β) (pre post : List α)
        (s' : SelectE α β ε), ¬ k = 0 → f c = .error e →
        (BottomE.new (α := α) k f).offerAll pre = .ok s' →
        BottomE.compute k (pre ++ c :: post) f = .error e) := by
  refine ⟨offerE_of_error hk he, ?_, ?_, ?_⟩
  · intro pre post s' hok
    exact offerAllE_error_reached pre s s' hok hk he post
  · intro k f pre post s' hk' hf hok
    unfold TopE.compute
    rw [offerAllE_error_reached pre _ s' hok hk' hf post]
  · intro k f pre post s' hk' hf hok
    unfold BottomE.compute
    rw [offerAllE_error_reached pre _ s' hok hk' hf post]

theorem select_k_C9_witness :
    (⟨1, fun _ : Nat => (Except.error "boom" : Except String Nat),
        fun a b => decide (a > b), []⟩ : SelectE Nat Nat String).offer 5
      = (Except.error "boom",
        ⟨1, fun _ => Except.error "boom", fun a b => decide (a > b), []⟩) :=
  (select_k_C9 _ 5 "boom" (by decide) rfl).1

/-- C10: with capacity 0, `offer` returns false without ever invoking the
scoring function — the source returns before the score is computed — so
it holds for every scorer, in particular one that fails on the offered
candidate: no failure propagates, and the state is unchanged. -/
theorem select_k_C10 (s : SelectE α β ε) (c : α) (hk : s.k = 0) :
    s.offer c = (.ok false, s) :=
  offerE_of_k_eq_zero c hk

theorem select_k_C10_witness :
    (⟨0, fun _ : Nat => (Except.error "boom" : Except String Nat),
        fun a b => decide (a > b), []⟩ : SelectE Nat Nat String).offer 5
      = (Except.ok false,
        ⟨0, fun _ => Except.error "boom", fun a b => decide (a > b), []⟩) :=
  select_k_C10 _ 5 rfl

theorem select_k_C2_witness :
    ((⟨1, fun n : Nat => n, fun a b : Nat => decide (a > b), [(5, 5)]⟩ :
        Select Nat Nat).offer 7).1 = true := by
  have h := select_k_C2
    (⟨1, fun n : Nat => n, fun a b : Nat => decide (a > b), [(5, 5)]⟩ :
      Select Nat Nat) 7 (by decide)
  exact (h.2 (5, 5) [] rfl (by decide)).1.mpr (by decide)

theorem select_k_C8_witness :
    (Select.new (α := Nat) (β := Nat) 0 (fun n => n)
        (fun a b => decide (a > b))).offer 3
      = (false, Select.new 0 (fun n => n) (fun a b => decide (a > b)))
    ∧ (((Select.new (α := Nat) (β := Nat) 0 (fun n => n)
        (fun a b => decide (a > b))).offerAll [4, 7]).results true
          false).1 = [] := by
  have h := select_k_C8
    (Select.new (α := Nat) (β := Nat) 0 (fun n => n)
      (fun a b => decide (a > b))) 3 rfl (fun n => n)
    (fun a b => decide (a > b)) [4, 7] true false
  exact ⟨h.1, h.2.1⟩

end SelectK
